import Mathlib

/-!
Verification of the Parquet/Arrow decoder-encoder core (arrow2 subset).

This file shallowly embeds the Rust code of the repository:
  * `src/io/avro/read/nested.rs`   (auxiliary mutable builders)
  * `src/array/growable/union.rs`  (GrowableUnion)
  * `src/io/parquet/write/dictionary.rs` (dictionary write path)
  * `src/io/parquet/read/deserialize/nested_utils.rs` (nested level machine)
  * `src/io/parquet/read/deserialize/binary/nested.rs` (nested binary decoder)
and proves the claims C1..C10 about it.

Machine integers are modelled as `Nat`/`Int` with explicit bounds where
overflow matters; fallible Rust code returns `Except`; a Rust `panic!` /
`assert!` is modelled by a distinguished error value (noted locally).
-/

/-- Model of arrow2's `Offset` type parameter (`i32` or `i64`): the only fact
the embedded code needs is which `usize` values `O::from_usize` accepts,
namely those not exceeding the type's maximum. -/
structure OffsetTy where
  maxVal : Nat
  deriving DecidableEq, Repr

/-- `O::from_usize(n)`: `Some` iff `n` fits in the offset type. -/
def OffsetTy.fromUsize (O : OffsetTy) (n : Nat) : Option Int :=
  if n ≤ O.maxVal then some (Int.ofNat n) else none

/-- The `i32` offset type: maximum representable `usize` is `2^31 - 1`. -/
def i32T : OffsetTy := ⟨2 ^ 31 - 1⟩

/-- The `i64` offset type: maximum representable `usize` is `2^63 - 1`. -/
def i64T : OffsetTy := ⟨2 ^ 63 - 1⟩

namespace Avro

/-- Errors of the Avro-path builders. `overflow` models `Error::Overflow`;
`assertFail` models the `assert!(size >= *self.offsets.last().unwrap())`
panic in `try_push_valid` (a Rust panic, not a returned error). -/
inductive AErr
  | overflow
  | assertFail
  deriving DecidableEq, Repr

/-- `DynMutableListArray<O>` from `src/io/avro/read/nested.rs`.  The child
`Box<dyn MutableArray>` is external state mutated through `mut_values`; the
embedding passes the child's current length to the operations that read it
(`try_push_valid`), so the struct itself keeps only `offsets` and the lazily
allocated `validity`. -/
structure DynMutableListArray where
  offsets : List Int
  validity : Option (List Bool)
  deriving DecidableEq, Repr

/-- `DynMutableListArray::new_from`: offsets start as `[O::default()] = [0]`,
no validity.  (The Rust code also asserts `values.len() == 0`.) -/
def new_from : DynMutableListArray := ⟨[0], none⟩

/-- `*self.offsets.last().unwrap()`; the `getD 0` default is never used on
states satisfying the builder invariant (offsets nonempty). -/
def lastOffset (a : DynMutableListArray) : Int := a.offsets.getLast?.getD 0

/-- `DynMutableListArray::try_push_valid`, with the child length passed in
for `self.values.len()`. -/
def try_push_valid (O : OffsetTy) (a : DynMutableListArray) (childLen : Nat) :
    Except AErr DynMutableListArray :=
  match O.fromUsize childLen with
  | none => .error .overflow
  | some size =>
    if lastOffset a ≤ size then
      .ok ⟨a.offsets ++ [size], a.validity.map (fun v => v ++ [true])⟩
    else .error .assertFail

/-- `DynMutableListArray::push_null`: repeat the last offset; push `false`
into the validity, lazily initializing it via `init_validity` (back-fill
`len - 1` true bits, then `set (len - 1) false`). -/
def push_null (a : DynMutableListArray) : DynMutableListArray :=
  let offsets := a.offsets ++ [lastOffset a]
  match a.validity with
  | some v => ⟨offsets, some (v ++ [false])⟩
  | none =>
    let len := offsets.length - 1
    ⟨offsets, some ((List.replicate len true).set (len - 1) false)⟩

/-- `MutableArray::len` for the list builder: `offsets.len() - 1`. -/
def lenL (a : DynMutableListArray) : Nat := a.offsets.length - 1

/-- `DynMutableStructArray` from `src/io/avro/read/nested.rs`.  The children
are external `MutableArray`s of equal length; `len()` is `values[0].len()`,
and every child's `push_null` appends exactly one slot, so the children are
modelled by that common length. -/
structure DynMutableStructArray where
  childLen : Nat
  validity : Option (List Bool)
  deriving DecidableEq, Repr

/-- `DynMutableStructArray::new`: whatever the children are, validity is
`None`. -/
def newStruct (childLen : Nat) : DynMutableStructArray := ⟨childLen, none⟩

/-- `DynMutableStructArray::push_null`: push a null into every child (length
grows by one), then push `false` into the validity, lazily initializing it
with the back-fill rule (the `len` used is `self.len()` taken after the
children grew). -/
def push_nullS (s : DynMutableStructArray) : DynMutableStructArray :=
  let childLen := s.childLen + 1
  match s.validity with
  | some v => ⟨childLen, some (v ++ [false])⟩
  | none => ⟨childLen, some ((List.replicate childLen true).set (childLen - 1) false)⟩

/-- Executable monotonicity predicate on an offsets vector. -/
def monoB : List Int → Bool
  | [] => true
  | [_] => true
  | a :: b :: t => decide (a ≤ b) && monoB (b :: t)

/-- The implicit invariant of `DynMutableListArray` (claim C8): offsets
nonempty, first offset zero, offsets monotone, and the validity (when
allocated) has exactly `len() = offsets.len() - 1` bits. -/
def invL (a : DynMutableListArray) : Prop :=
  a.offsets ≠ [] ∧ a.offsets.head? = some 0 ∧ monoB a.offsets = true ∧
    ∀ v, a.validity = some v → v.length = a.offsets.length - 1

end Avro

namespace GU

/-- Heterogeneous child values for the union example of claim C3: integer
children and string children (the string "x" of the scenario is represented
by its byte). -/
inductive Val
  | ival (n : Int)
  | sval (n : Nat)
  deriving DecidableEq, Repr

/-- A source `UnionArray` in dense form: `types()`, `offsets()` and the
child arrays `fields()` (each child modelled by its list of values). -/
structure UnionSrcM (V : Type) where
  types : List Int
  offsets : List Int
  fields : List (List V)
  deriving DecidableEq, Repr

/-- `GrowableUnion`: builder types, builder offsets (`Some` iff the unions
are dense), and one child `Growable` state per field.  The child growables
are kept abstract (type `χ`); `childExtend t state index start len` models
`self.fields[t].extend(index, start, len)`. -/
structure GUnionM (χ : Type) where
  types : List Int
  offsets : Option (List Int)
  fields : List χ
  deriving DecidableEq, Repr

/-- `GrowableUnion::extend(index, start, len)` from
`src/array/growable/union.rs`.  Dense: copy the `types` and `offsets`
slices verbatim and, for each copied pair `(t, o)`, extend child builder
`t` by one element at position `o` of source `index`.  Sparse: extend every
child builder with `[start, start+len)`.  (Rust indexes `fields[t]`
directly and would panic out of range; the embedding uses `getD`/`set`,
and the theorems assume in-range type ids.) -/
def extend {V χ : Type} [Inhabited χ] (arrays : List (UnionSrcM V))
    (childExtend : Nat → χ → Nat → Nat → Nat → χ)
    (g : GUnionM χ) (index start len : Nat) : GUnionM χ :=
  let array := arrays.getD index ⟨[], [], []⟩
  let types := (array.types.drop start).take len
  match g.offsets with
  | some xs =>
    let offsets := (array.offsets.drop start).take len
    let fields := (types.zip offsets).foldl
      (fun fs p =>
        fs.set p.1.toNat (childExtend p.1.toNat (fs.getD p.1.toNat default) index p.2.toNat 1))
      g.fields
    ⟨g.types ++ types, some (xs ++ offsets), fields⟩
  | none =>
    let fields := (List.range g.fields.length).map
      (fun t => childExtend t (g.fields.getD t default) index start len)
    ⟨g.types ++ types, none, fields⟩

/-- Source A of the spec's dense-union scenario: types `[0,1,0]`, offsets
`[0,0,1]`, child0 `[10,20]`, child1 `["x"]`. -/
def srcA : UnionSrcM Val := ⟨[0, 1, 0], [0, 0, 1], [[.ival 10, .ival 20], [.sval 120]]⟩

/-- The concrete child growable used in the scenario: each child builder is
the list of values it has copied; `extend(index, start, len)` appends the
slice `[start, start+len)` of source `index`'s matching field. -/
def listChildExtend (arrays : List (UnionSrcM Val)) :
    Nat → List Val → Nat → Nat → Nat → List Val :=
  fun t s i o l => s ++ ((((arrays.getD i ⟨[], [], []⟩).fields.getD t []).drop o).take l)

/-- An empty dense builder over two fields. -/
def emptyGU : GUnionM (List Val) := ⟨[], some [], [[], []]⟩

end GU

namespace BinN

/-- Page states of the nested binary decoder
(`src/io/parquet/read/deserialize/binary/nested.rs`).  The plain value
iterator `BinaryIter` is modelled as the list of byte slices left to yield;
the dictionary states hold the remaining RLE indices and `&dict`. -/
inductive BState
  | optional (values : List (List Nat))
  | required (values : List (List Nat))
  | requiredDictionary (values : List Nat) (dict : List (List Nat))
  | optionalDictionary (values : List Nat) (dict : List (List Nat))
  deriving DecidableEq, Repr

/-- `BinaryDecoder::push_valid`.  The decoded state `(Binary<O>, MutableBitmap)`
is modelled as the list of pushed slices plus the validity bits.  In every
state the next value is `next().unwrap_or_default()` (or
`next().map(op).unwrap_or_default()` in dictionary states), so an exhausted
iterator yields the empty slice.  (`op` indexes `dict[index]`; Rust would
panic on an out-of-range index — irrelevant here since the claim concerns
the exhausted-iterator case, where `op` is not applied.) -/
def push_valid : BState → List (List Nat) × List Bool → BState × (List (List Nat) × List Bool)
  | .optional vs, (values, validity) =>
    (.optional vs.tail, (values ++ [vs.headD []], validity ++ [true]))
  | .required vs, (values, validity) =>
    (.required vs.tail, (values ++ [vs.headD []], validity))
  | .requiredDictionary vs dict, (values, validity) =>
    (.requiredDictionary vs.tail dict,
      (values ++ [(vs.head?.map (fun i => dict.getD i [])).getD []], validity))
  | .optionalDictionary vs dict, (values, validity) =>
    (.optionalDictionary vs.tail dict,
      (values ++ [(vs.head?.map (fun i => dict.getD i [])).getD []], validity ++ [true]))

/-- `BinaryDecoder::push_null`: push the empty slice and a `false` bit. -/
def push_null : List (List Nat) × List Bool → List (List Nat) × List Bool
  | (values, validity) => (values ++ [[]], validity ++ [false])

end BinN

namespace PqW

/-- A `DictionaryArray<K>` as the dictionary writer sees it: the raw key
values (`keys_values_iter`, as non-negative indices), the keys' validity,
and the values array's length and validity. -/
structure DictArrM where
  keyVals : List Nat
  keyValidity : Option (List Bool)
  valuesLen : Nat
  valuesValidity : Option (List Bool)
  deriving DecidableEq, Repr

/-- `DictionaryArray::keys_iter`: one `Option<usize>` per row, `none` where
the key is invalid. -/
def keysIter (a : DictArrM) : List (Option Nat) :=
  match a.keyValidity with
  | none => a.keyVals.map some
  | some v => (a.keyVals.zip v).map (fun kb => if kb.2 then some kb.1 else none)

/-- `normalized_validity` from `src/io/parquet/write/dictionary.rs`: both
absent ⇒ none; exactly one present ⇒ that bitmap reused (cloned); both
present ⇒ the values' validity projected through the keys
(`keys_iter().map(|x| x.map(|x| rhs.get_bit(x)).unwrap_or(false))`).
`rhs.get_bit` is modelled by `getD _ false`; Rust would panic on an
out-of-range key. -/
def normalized_validity (a : DictArrM) : Option (List Bool) :=
  match a.keyValidity, a.valuesValidity with
  | none, none => none
  | none, some rhs => some rhs
  | some lhs, none => some lhs
  | some _, some rhs =>
    some ((keysIter a).map (fun x => (x.map (fun i => rhs.getD i false)).getD false))

/-- `keys.is_valid(i)` (absent bitmap means all valid). -/
def isValidKey (a : DictArrM) (i : Nat) : Bool :=
  (a.keyValidity.map (fun v => v.getD i false)).getD true

/-- `values.is_valid(j)` (absent bitmap means all valid). -/
def valuesIsValid (a : DictArrM) (j : Nat) : Bool :=
  (a.valuesValidity.map (fun v => v.getD j false)).getD true

/-- Row `i` of the unified validity computed by `normalized_validity`
(absent bitmap means all rows valid). -/
def unifiedBit (a : DictArrM) (i : Nat) : Bool :=
  ((normalized_validity a).map (fun v => v.getD i false)).getD true

/-- Claim C1's characterization, as stated: every row `i` of the unified
validity is valid iff the key at `i` is valid and
`values.is_valid(keys[i])`. -/
def unifiedClaim (a : DictArrM) : Prop :=
  ∀ i, i < a.keyVals.length →
    unifiedBit a i = (isValidKey a i && valuesIsValid a (a.keyVals.getD i 0))

/-- Counterexample input for C1: keys `[1, 0]` with no validity, two values
with validity `[true, false]`. -/
def cexC1 : DictArrM := ⟨[1, 0], none, 2, some [true, false]⟩

/-- A both-bitmaps-present input used by the C1 witness. -/
def bothC1 : DictArrM := ⟨[1, 0], some [true, true], 2, some [true, false]⟩

/-- Modelled from the spec: `utils::get_bit_width` of the write path is not
under `src/`; per the spec it is `bit_width = ceil(log2(max_key + 1))`,
i.e. the bit length of `max_key`. -/
def get_bit_width (x : Nat) : Nat := if x = 0 then 0 else Nat.log2 x + 1

/-- `serialize_keys_values` from `src/io/parquet/write/dictionary.rs`.
`keys` is `keys_values_iter()` and the `as u32` cast is the `% 2^32`.
The parquet2 hybrid-RLE `encode_u32` is external to the repository and is
kept abstract as `encode`. With a validity, the keys are zipped with it and
the invalid positions dropped; the bit width is the bit length of the
largest surviving key (`max().unwrap_or(0)`); one prefix byte carrying the
bit width is pushed, then the encoded keys. -/
def serialize_keys_values (keys : List Nat) (validity : Option (List Bool))
    (encode : List Nat → Nat → List Nat) (buffer : List Nat) : List Nat :=
  let keys32 := keys.map (fun x => x % 2 ^ 32)
  match validity with
  | some v =>
    let fkeys := (keys32.zip v).filterMap (fun kb => if kb.2 then some kb.1 else none)
    let numBits := get_bit_width (fkeys.foldl max 0)
    (buffer ++ [numBits]) ++ encode fkeys numBits
  | none =>
    let numBits := get_bit_width (keys32.foldl max 0)
    (buffer ++ [numBits]) ++ encode keys32 numBits

/-- The key sequence the claim says is written: every position whose
unified-validity bit is false has been skipped. -/
def writtenKeys (keys : List Nat) (validity : Option (List Bool)) : List Nat :=
  match validity with
  | none => keys.map (fun x => x % 2 ^ 32)
  | some v =>
    ((keys.map (fun x => x % 2 ^ 32)).zip v).filterMap
      (fun kb => if kb.2 then some kb.1 else none)

/-- The claim's bit width: `ceil(log2(max_key + 1))` over the written keys. -/
def bitWidthOf (keys : List Nat) (validity : Option (List Bool)) : Nat :=
  get_bit_width ((writtenKeys keys validity).foldl max 0)

end PqW

namespace PqN

/-- The `Nested` builders of `nested_utils.rs`, one constructor per
implementation: `NestedPrimitive` (length counter), `NestedValid`
(non-null list: offsets), `NestedOptional` (nullable list: offsets +
validity), `NestedStructValid` (length counter), `NestedStruct`
(validity). -/
inductive NestedB
  | primitive (nullable : Bool) (length : Nat)
  | valid (offsets : List Int)
  | optional (offsets : List Int) (validity : List Bool)
  | structValid (length : Nat)
  | structN (validity : List Bool)
  deriving DecidableEq, Repr

/-- Default `NestedB` (only used to give `getD`/`headD` a value). -/
def nb0 : NestedB := .primitive false 0

namespace NestedB

/-- `Nested::is_nullable`. -/
def isNullable : NestedB → Bool
  | .primitive b _ => b
  | .valid _ => false
  | .optional _ _ => true
  | .structValid _ => false
  | .structN _ => true

/-- `Nested::is_repeated` (true for the two list builders). -/
def isRepeated : NestedB → Bool
  | .valid _ => true
  | .optional _ _ => true
  | _ => false

/-- `Nested::is_required` (true for the two struct builders). -/
def isRequired : NestedB → Bool
  | .structValid _ => true
  | .structN _ => true
  | _ => false

/-- `Nested::push(length, is_valid)`. -/
def push : NestedB → Int → Bool → NestedB
  | .primitive b n, _, _ => .primitive b (n + 1)
  | .valid offsets, v, _ => .valid (offsets ++ [v])
  | .optional offsets validity, v, b => .optional (offsets ++ [v]) (validity ++ [b])
  | .structValid n, _, _ => .structValid (n + 1)
  | .structN validity, _, b => .structN (validity ++ [b])

/-- `Nested::len`. -/
def len : NestedB → Nat
  | .primitive _ n => n
  | .valid offsets => offsets.length
  | .optional offsets _ => offsets.length
  | .structValid n => n
  | .structN validity => validity.length

end NestedB

/-- `InitNested` from `nested_utils.rs`. -/
inductive InitNested
  | primitive (nullable : Bool)
  | list (nullable : Bool)
  | struct (nullable : Bool)
  deriving DecidableEq, Repr

/-- `init_nested`: instantiate one fresh builder per `InitNested` (the
capacity argument only pre-allocates and is dropped here). -/
def initNestedF (init : List InitNested) : List NestedB :=
  init.map (fun i => match i with
    | .primitive b => .primitive b 0
    | .list b => if b then .optional [] [] else .valid []
    | .struct b => if b then .structN [] else .structValid 0)

/-- `NestedState::len`: the outermost builder's length (number of rows). -/
def nestedLen (ns : List NestedB) : Nat := (ns.headD nb0).len

/-- A `DataPage` as the nested machine consumes it: the zipped
`(rep, def)` level pairs (`NestedPage::try_new`) plus an abstract payload
from which the per-type decoder builds its value state. -/
structure DataPageM (ρ : Type) where
  levels : List (Nat × Nat)
  payload : ρ
  deriving DecidableEq, Repr

/-- `Page = Data | Dict`. -/
inductive PageM (ρ DP : Type)
  | data (p : DataPageM ρ)
  | dict (d : DP)
  deriving DecidableEq, Repr

/-- The `NestedDecoder` trait: per-leaf-type state machine kept abstract.
`pushValid` may consume from the value state; `pushNull` appends a null
placeholder to the decoded state. -/
structure NDecoder (ρ DP St Di De : Type) where
  buildState : DataPageM ρ → Option Di → Except String St
  withCapacity : Nat → De
  pushValid : St → De → St × De
  pushNull : De → De
  deserializeDict : DP → Di

/-- `MaybeNext` from `utils.rs`. -/
inductive MaybeNext (α : Type)
  | some (x : α)
  | more
  | none
  deriving DecidableEq, Repr

/-- `usize::MAX`, used by `chunk_size.unwrap_or(usize::MAX)`. -/
def usizeMax : Nat := 2 ^ 64 - 1

/-- The def-level thresholds `cum_sum` of `extend_offsets2`:
`cum_sum[i+1] = cum_sum[i] + nullable_i + repeated_i`. -/
def cumSumOf (ns : List NestedB) : List Nat :=
  (ns.map (fun nest => (cond nest.isNullable 1 0) + cond nest.isRepeated 1 0)).scanl
    (· + ·) 0

/-- The rep-level thresholds `cum_rep` of `extend_offsets2`:
`cum_rep[i+1] = cum_rep[i] + repeated_i`. -/
def cumRepOf (ns : List NestedB) : List Nat :=
  (ns.map (fun nest => cond nest.isRepeated 1 0)).scanl (· + ·) 0

/-- The initial `values_count` of `extend_offsets2`:
`values_count[d] = nested[d+1].len()` for `d < n-1`, and
`values_count[n-1] = nested[n-1].len()`. -/
def valuesCountOf (ns : List NestedB) : List Int :=
  (List.range ns.length).map (fun d =>
    if d + 1 < ns.length then Int.ofNat ((ns.getD (d + 1) nb0).len)
    else Int.ofNat ((ns.getD (ns.length - 1) nb0).len))

/-- The `right_level` local of `extend_offsets2`'s depth walk:
`(rep ≤ cum_rep[d]) ∧ (def ≥ cum_sum[d])`. -/
def rightLev (cumRep cumSum : List Nat) (rep defl d : Nat) : Bool :=
  decide (rep ≤ cumRep.getD d 0) && decide (cumSum.getD d 0 ≤ defl)

/-- Result of the per-depth walk: updated builders, updated `values_count`,
and the decoder's value/decoded states. -/
structure DLRes (St De : Type) where
  nested : List NestedB
  vc : List Int
  vs : St
  dec : De

/-- The inner `for (depth, nest) in nested.iter_mut().enumerate()` loop of
`extend_offsets2` for one `(rep, def)` pair: at depth `d`, if `is_required`
(carried in `req`) or the right level is hit, push
`(values_count[d], is_valid)` into the depth-`d` builder, write the new
length into `values_count[d-1]`, recompute `is_required`, and at the leaf
depth let the primitive decoder push a value or a null. -/
def depthLoop {ρ DP St Di De : Type} (D : NDecoder ρ DP St Di De)
    (rep defl : Nat) (cumRep cumSum : List Nat) (maxDepth : Nat) :
    Nat → List NestedB → List Int → Bool → St → De → DLRes St De
  | _, [], vc, _, vs, dec => ⟨[], vc, vs, dec⟩
  | d, nest :: rest, vc, req, vs, dec =>
    if req || rightLev cumRep cumSum rep defl d then
      let isValid : Bool := nest.isNullable && decide (cumSum.getD d 0 < defl)
      let nest1 := nest.push (vc.getD d 0) isValid
      let vc1 := if 0 < d then vc.set (d - 1) (Int.ofNat nest1.len) else vc
      let req1 := nest1.isRequired && !isValid
      let vd :=
        if d = maxDepth then
          (if rightLev cumRep cumSum rep defl d &&
              (decide (defl ≠ cumSum.getD d 0) || !nest1.isNullable)
           then D.pushValid vs dec else (vs, D.pushNull dec))
        else (vs, dec)
      let r := depthLoop D rep defl cumRep cumSum maxDepth (d + 1) rest vc1 req1 vd.1 vd.2
      ⟨nest1 :: r.nested, r.vc, r.vs, r.dec⟩
    else
      let r := depthLoop D rep defl cumRep cumSum maxDepth (d + 1) rest vc req vs dec
      ⟨nest :: r.nested, r.vc, r.vs, r.dec⟩

/-- Result of `extend_offsets2`: the unconsumed `(rep, def)` pairs and the
updated states. -/
structure EORes (St De : Type) where
  pairs : List (Nat × Nat)
  vs : St
  nested : List NestedB
  dec : De

/-- The `while let Some((rep, def)) = page.iter.next()` loop of
`extend_offsets2`: count a row when `rep == 0`, run the depth walk, then
break once the peeked next pair starts a row (`next_rep == 0`, absent pair
counting as 0) and `rows == additional`. -/
def extendOffsets2Go {ρ DP St Di De : Type} (D : NDecoder ρ DP St Di De)
    (cumRep cumSum : List Nat) (maxDepth : Nat) :
    List (Nat × Nat) → St → List NestedB → List Int → De → Nat → Nat → EORes St De
  | [], vs, ns, _, dec, _, _ => ⟨[], vs, ns, dec⟩
  | (rep, defl) :: rest, vs, ns, vc, dec, rows, additional =>
    let rows1 := if rep = 0 then rows + 1 else rows
    let r := depthLoop D rep defl cumRep cumSum maxDepth 0 ns vc false vs dec
    if ((rest.head?.map Prod.fst).getD 0) = 0 ∧ rows1 = additional then
      ⟨rest, r.vs, r.nested, r.dec⟩
    else extendOffsets2Go D cumRep cumSum maxDepth rest r.vs r.nested r.vc r.dec rows1 additional

/-- `extend_offsets2(page, values_state, nested, decoded, decoder,
additional)`: build the cumulative tables and `values_count` from the
builders, then run the pair loop. -/
def extendOffsets2 {ρ DP St Di De : Type} (D : NDecoder ρ DP St Di De)
    (pairs : List (Nat × Nat)) (vs : St) (ns : List NestedB) (dec : De)
    (additional : Nat) : EORes St De :=
  extendOffsets2Go D (cumRepOf ns) (cumSumOf ns) (ns.length - 1) pairs vs ns
    (valuesCountOf ns) dec 0 additional

end PqN

namespace PqN

/-- One `(NestedState, DecodedState)` chunk queued by the nested reader. -/
def totalRows {De : Type} (items : List (List NestedB × De)) : Nat :=
  (items.map (fun it => nestedLen it.1)).sum

/-- The `while page.len() > 0 && *remaining > 0` loop at the end of
`extend`: start a fresh builder stack, consume up to
`additional = chunk_size.min(remaining)` rows from the page, and queue the
chunk.  Each iteration consumes at least one `(rep, def)` pair, which is
the termination measure. -/
def extendLoop {ρ DP St Di De : Type} (D : NDecoder ρ DP St Di De)
    (csN : Nat) (init : List InitNested)
    (pairs : List (Nat × Nat)) (vs : St) (items : List (List NestedB × De))
    (remaining : Nat) : List (List NestedB × De) × Nat :=
  if h : pairs ≠ [] ∧ 0 < remaining then
    let additional := csN.min remaining
    let r := extendOffsets2 D pairs vs (initNestedF init) (D.withCapacity 0) additional
    extendLoop D csN init r.pairs r.vs (items ++ [(r.nested, r.dec)])
      (remaining - nestedLen r.nested)
  else (items, remaining)
termination_by pairs.length
decreasing_by
  have aux : ∀ (cr cs : List Nat) (md : Nat) (ps : List (Nat × Nat)) vs1 ns1 vc1 dec1 r1 a1,
      (extendOffsets2Go D cr cs md ps vs1 ns1 vc1 dec1 r1 a1).pairs.length ≤ ps.length := by
    intro cr cs md ps
    induction ps with
    | nil => intro vs1 ns1 vc1 dec1 r1 a1; simp [extendOffsets2Go]
    | cons p rest ih =>
      intro vs1 ns1 vc1 dec1 r1 a1
      obtain ⟨rep, defl⟩ := p
      rw [extendOffsets2Go]
      split_ifs with h1 h2 h3 <;>
        first
          | simpa using Nat.le_succ rest.length
          | exact Nat.le_trans (ih _ _ _ _ _ _) (Nat.le_succ rest.length)
  obtain ⟨p, rest, hp⟩ : ∃ p rest, pairs = p :: rest := by
    cases pairs with
    | nil => exact absurd rfl h.1
    | cons p rest => exact ⟨p, rest, rfl⟩
  subst hp
  obtain ⟨rep, defl⟩ := p
  show (extendOffsets2 D _ _ _ _ _).pairs.length < (_ :: rest).length
  rw [extendOffsets2, extendOffsets2Go]
  split_ifs with h1 h2 h3 <;>
    first
      | simpa using Nat.lt_succ_self rest.length
      | exact Nat.lt_succ_of_le (aux _ _ _ _ _ _ _ _ _ _)

/-- `extend` from `nested_utils.rs`: build the page state (may fail), pop
the back chunk (or start a fresh one), extend it by
`additional = (chunk_size - existing).min(remaining)` rows, decrement
`remaining` by the rows appended, push the chunk back, then run the loop
producing further chunks. -/
def extend {ρ DP St Di De : Type} (D : NDecoder ρ DP St Di De)
    (page : DataPageM ρ) (init : List InitNested)
    (items : List (List NestedB × De)) (dict : Option Di)
    (remaining : Nat) (chunkSize : Option Nat) :
    Except String (List (List NestedB × De) × Nat) :=
  match D.buildState page dict with
  | .error e => .error e
  | .ok vs =>
    let pairs := page.levels
    let csN := chunkSize.getD usizeMax
    let popped :=
      match items.getLast? with
      | some nd => (items.dropLast, nd.1, nd.2)
      | none => (items, initNestedF init, D.withCapacity 0)
    let existing := nestedLen popped.2.1
    let additional := (csN - existing).min remaining
    let r := extendOffsets2 D pairs vs popped.2.1 popped.2.2 additional
    let remaining1 := remaining - (nestedLen r.nested - existing)
    let items1 := popped.1 ++ [(r.nested, r.dec)]
    .ok (extendLoop D csN init r.pairs r.vs items1 remaining1)

deriving instance DecidableEq for Except

/-- The streaming iterator state threaded through `next`: the remaining
page stream (`Ok(None)` is the empty list), the queue of chunks (front at
the head), the held dictionary and the rows still owed. -/
structure NIter (ρ DP St Di De : Type) where
  pages : List (Except String (PageM ρ DP))
  items : List (List NestedB × De)
  dict : Option Di
  remaining : Nat
  deriving DecidableEq, Repr

/-- `items.pop_front()`: the front chunk if any (the `unwrap()` call sites
in `next` only reach this with a nonempty queue). -/
def popFront {ρ DP St Di De : Type} (s : NIter ρ DP St Di De) :
    MaybeNext (Except String (List NestedB × De)) × NIter ρ DP St Di De :=
  match s.items with
  | it :: rest => (.some (.ok it), { s with items := rest })
  | [] => (.none, s)

/-- `items.front().unwrap().0.len()` (0 for an empty queue, which the call
sites exclude). -/
def frontRows {De : Type} (items : List (List NestedB × De)) : Nat :=
  match items with
  | it :: _ => nestedLen it.1
  | [] => 0

/-- `next` from `nested_utils.rs`: return the front chunk when more than
one is queued, or when exactly one is queued and it is full; return the
queue remainder when no rows are owed; otherwise fetch the next page — a
`Dict` page updates the held dictionary and yields `More`, a `Data` page
is handed to `extend` and yields either `More` (single unfilled chunk) or
the front chunk. -/
def next {ρ DP St Di De : Type} (D : NDecoder ρ DP St Di De)
    (init : List InitNested) (chunkSize : Option Nat)
    (s : NIter ρ DP St Di De) :
    MaybeNext (Except String (List NestedB × De)) × NIter ρ DP St Di De :=
  if 1 < s.items.length then popFront s
  else if s.items.length = 1 ∧ frontRows s.items = chunkSize.getD usizeMax then popFront s
  else if s.remaining = 0 then popFront s
  else
    match s.pages with
    | [] => popFront s
    | .error e :: rest => (.some (.error e), { s with pages := rest })
    | .ok (.dict dp) :: rest =>
      (.more, { s with pages := rest, dict := some (D.deserializeDict dp) })
    | .ok (.data p) :: rest =>
      match extend D p init s.items s.dict s.remaining chunkSize with
      | .error e => (.some (.error e), { s with pages := rest })
      | .ok (items1, remaining1) =>
        let s1 := { s with pages := rest, items := items1, remaining := remaining1 }
        if items1.length = 1 ∧ frontRows items1 < chunkSize.getD usizeMax then (.more, s1)
        else popFront s1

/-- The `is_required` flag carried into depth `d0 + j` by the depth walk
over the builder suffix starting at depth `d0` with incoming flag `req0`:
at each visited depth it becomes `required ∧ ¬valid`, otherwise it is
carried unchanged.  This is the claim-side description of the propagation. -/
def reqCarried (cumRep cumSum : List Nat) (rep defl : Nat) :
    List NestedB → Nat → Bool → Nat → Bool
  | _, _, req0, 0 => req0
  | [], _, req0, _ + 1 => req0
  | nest :: rest, d0, req0, j + 1 =>
    reqCarried cumRep cumSum rep defl rest (d0 + 1)
      (if req0 || rightLev cumRep cumSum rep defl d0 then
        nest.isRequired && !(nest.isNullable && decide (cumSum.getD d0 0 < defl))
      else req0) j

/-- A trivial concrete decoder instance used by witnesses and
counterexamples: the decoded state records the sequence of
value/null pushes as booleans. -/
def testDecoder : NDecoder Unit Unit Unit Unit (List Bool) :=
  ⟨fun _ _ => .ok (), fun _ => [], fun _ dec => ((), dec ++ [true]),
   fun dec => dec ++ [false], fun _ => ()⟩

/-- Fixture for the C2 witness: a non-null list over a nullable primitive. -/
def ns2 : List NestedB := [.valid [], .primitive true 0]

/-- Fixture for the C4 counterexample: no rows owed (`remaining = 0`),
empty queue, and a `Dict` page waiting in the stream. -/
def cexState : NIter Unit Unit Unit Unit (List Bool) :=
  ⟨[Except.ok (PageM.dict ())], [], none, 0⟩

/-- Fixture init stack: a single nullable primitive. -/
def initP : List InitNested := [InitNested.primitive true]

end PqN

namespace PqN

/-- Fixture page for the C9 witness: three `(rep, def) = (0, 1)` pairs. -/
def pageW : DataPageM Unit := ⟨[(0, 1), (0, 1), (0, 1)], ()⟩

/-- Fixture state for the C4 witness: two chunks queued. -/
def sTwo : NIter Unit Unit Unit Unit (List Bool) :=
  ⟨[], [([.primitive true 1], [true]), ([.primitive true 1], [true])], none, 5⟩

end PqN

section HelperLemmas

/-- Setting the last bit of an all-true bitmap of length `n ≥ 1` to false is
the back-fill pattern: `n - 1` true bits followed by one false bit. -/
theorem replicate_set_last :
    ∀ n : Nat, 1 ≤ n →
      (List.replicate n true).set (n - 1) false = List.replicate (n - 1) true ++ [false] := by
  intro n
  induction n with
  | zero => intro h; exact absurd h (by decide)
  | succ m ih =>
    intro _
    cases m with
    | zero => rfl
    | succ k =>
      have hk := ih (Nat.succ_le_succ (Nat.zero_le k))
      simp only [Nat.succ_sub_one] at hk ⊢
      rw [List.replicate_succ, List.set_cons_succ, hk, List.replicate_succ, List.cons_append]

/-- Appending an element at least as large as the last keeps an offsets
vector monotone. -/
theorem monoB_concat :
    ∀ (l : List Int) (x : Int), l ≠ [] → Avro.monoB l = true →
      l.getLast?.getD 0 ≤ x → Avro.monoB (l ++ [x]) = true := by
  intro l
  induction l with
  | nil => intro x h; exact absurd rfl h
  | cons a t ih =>
    intro x _ hm hle
    cases t with
    | nil =>
      simp only [List.getLast?_singleton, Option.getD_some] at hle
      simpa [Avro.monoB] using hle
    | cons b u =>
      simp only [Avro.monoB, Bool.and_eq_true, decide_eq_true_eq] at hm
      have hlast : (b :: u).getLast?.getD 0 ≤ x := by
        simpa [List.getLast?_cons_cons] using hle
      have hrec := ih x (by simp) hm.2 hlast
      simp only [List.cons_append, Avro.monoB, Bool.and_eq_true, decide_eq_true_eq] at hrec ⊢
      exact ⟨hm.1, hrec⟩

/-- `foldl max` stays below a bound that dominates the accumulator and
every element. -/
theorem foldl_max_lt {B : Nat} :
    ∀ (l : List Nat) (acc : Nat), acc < B → (∀ x ∈ l, x < B) → l.foldl max acc < B := by
  intro l
  induction l with
  | nil => intro acc h _; simpa using h
  | cons a t ih =>
    intro acc hacc hall
    have ha : a < B := hall a (by simp)
    exact ih (max acc a) (Nat.max_lt.mpr ⟨hacc, ha⟩) (fun x hx => hall x (by simp [hx]))

/-- `getD` through a `map` of a `zip` of equal-length lists. -/
theorem getD_map_zip {α β γ : Type} (f : α × β → γ) (dc : γ) :
    ∀ (l1 : List α) (l2 : List β) (i : Nat) (d1 : α) (d2 : β),
      i < l1.length → l1.length = l2.length →
      ((l1.zip l2).map f).getD i dc = f (l1.getD i d1, l2.getD i d2) := by
  intro l1
  induction l1 with
  | nil => intro l2 i d1 d2 hi _; exact absurd hi (by simp)
  | cons a t ih =>
    intro l2 i d1 d2 hi hlen
    cases l2 with
    | nil => exact absurd hlen (by simp)
    | cons b u =>
      cases i with
      | zero => rfl
      | succ j =>
        have hj : j < t.length := Nat.lt_of_succ_lt_succ hi
        have hlen' : t.length = u.length := by simpa using hlen
        simpa using ih u j d1 d2 hj hlen'

end HelperLemmas

/-- C6: `try_push_valid` appends the current child length as the next
offset and succeeds iff that length is representable in the offset type
`O` (`O::from_usize`), returning `Overflow` otherwise; for `O = i32` the
boundary is `2^31 - 1`: lengths up to it succeed, anything beyond returns
`Overflow`.  The hypothesis is that the child has not shrunk below the last
offset (otherwise the Rust code panics on its `assert!`). -/
theorem claim_C6 (O : OffsetTy) (a : Avro.DynMutableListArray) (n : Nat)
    (h : Avro.lastOffset a ≤ (n : Int)) :
    ((∃ a', Avro.try_push_valid O a n = .ok a') ↔ n ≤ O.maxVal) ∧
    (n ≤ O.maxVal →
      Avro.try_push_valid O a n =
        .ok ⟨a.offsets ++ [(n : Int)], a.validity.map (fun v => v ++ [true])⟩) ∧
    (O.maxVal < n → Avro.try_push_valid O a n = .error .overflow) ∧
    i32T.maxVal = 2 ^ 31 - 1 := by
  have key : Avro.try_push_valid O a n =
      if n ≤ O.maxVal then
        .ok ⟨a.offsets ++ [(n : Int)], a.validity.map (fun v => v ++ [true])⟩
      else .error .overflow := by
    unfold Avro.try_push_valid OffsetTy.fromUsize
    by_cases hn : n ≤ O.maxVal
    · simp only [if_pos hn]
      simpa using h
    · simp only [if_neg hn]
  refine ⟨?_, ?_, ?_, rfl⟩
  · rw [key]
    by_cases hn : n ≤ O.maxVal
    · simp [hn]
    · simp [hn]
  · intro hn; rw [key, if_pos hn]
  · intro hn; rw [key, if_neg (Nat.not_le.mpr hn)]

/-- Inversion for a successful `try_push_valid`: the result appends the
child length as the next offset, and both the `assert!` condition and the
representability condition held. -/
theorem try_push_valid_ok {O : OffsetTy} {a : Avro.DynMutableListArray} {n : Nat}
    {a' : Avro.DynMutableListArray} (hok : Avro.try_push_valid O a n = .ok a') :
    a' = ⟨a.offsets ++ [(n : Int)], a.validity.map (fun v => v ++ [true])⟩ ∧
    Avro.lastOffset a ≤ (n : Int) ∧ n ≤ O.maxVal := by
  by_cases hn : n ≤ O.maxVal
  · by_cases hle : Avro.lastOffset a ≤ Int.ofNat n
    · simp only [Avro.try_push_valid, OffsetTy.fromUsize, if_pos hn, if_pos hle] at hok
      exact ⟨(Except.ok.inj hok).symm, by simpa using hle, hn⟩
    · simp only [Avro.try_push_valid, OffsetTy.fromUsize, if_pos hn, if_neg hle] at hok
      exact absurd hok (by simp)
  · simp only [Avro.try_push_valid, OffsetTy.fromUsize, if_neg hn] at hok
    exact absurd hok (by simp)

/-- C6 witness: pushing child length 5 through an `i32` list builder. -/
theorem claim_C6_witness :
    Avro.try_push_valid i32T Avro.new_from 5 =
      .ok ⟨Avro.new_from.offsets ++ [(5 : Int)],
           Avro.new_from.validity.map (fun v => v ++ [true])⟩ :=
  (claim_C6 i32T Avro.new_from 5 (by decide)).2.1 (by decide)

/-- C7: neither auxiliary builder allocates a validity bitmap before the
first `push_null` (`new_from`/`new` leave it `None` and `try_push_valid`
keeps it `None`); the first `push_null` on a builder of length `len`
(counting the newly pushed null) creates `len - 1` true bits followed by
one false bit; and the list builder's `push_null` additionally repeats the
last offset. -/
theorem claim_C7 :
    Avro.new_from.validity = none ∧
    (∀ O a n a', Avro.try_push_valid O a n = .ok a' → a.validity = none →
      a'.validity = none) ∧
    (∀ a : Avro.DynMutableListArray, a.offsets ≠ [] → a.validity = none →
      (Avro.push_null a).offsets = a.offsets ++ [Avro.lastOffset a] ∧
      Avro.lenL (Avro.push_null a) = Avro.lenL a + 1 ∧
      (Avro.push_null a).validity =
        some (List.replicate (Avro.lenL (Avro.push_null a) - 1) true ++ [false])) ∧
    (∀ cl, (Avro.newStruct cl).validity = none) ∧
    (∀ s : Avro.DynMutableStructArray, s.validity = none →
      (Avro.push_nullS s).childLen = s.childLen + 1 ∧
      (Avro.push_nullS s).validity =
        some (List.replicate ((Avro.push_nullS s).childLen - 1) true ++ [false])) := by
  refine ⟨rfl, ?_, ?_, fun _ => rfl, ?_⟩
  · intro O a n a' hok hnone
    rw [(try_push_valid_ok hok).1, hnone]
    rfl
  · intro a hne hnone
    have hpos : 1 ≤ a.offsets.length := List.length_pos.mpr hne
    unfold Avro.push_null
    rw [hnone]
    refine ⟨rfl, ?_, ?_⟩
    · simp only [Avro.lenL, List.length_append, List.length_singleton]
      omega
    · simp only [Avro.lenL, List.length_append, List.length_singleton,
        Nat.add_sub_cancel]
      rw [replicate_set_last _ hpos]
  · intro s hnone
    unfold Avro.push_nullS
    rw [hnone]
    refine ⟨rfl, ?_⟩
    have h := replicate_set_last (s.childLen + 1) (Nat.succ_le_succ (Nat.zero_le _))
    simp only [Nat.add_sub_cancel] at h ⊢
    rw [h]

/-- C7 witness: first `push_null` on a fresh list builder. -/
theorem claim_C7_witness :
    (Avro.push_null Avro.new_from).offsets =
      Avro.new_from.offsets ++ [Avro.lastOffset Avro.new_from] ∧
    Avro.lenL (Avro.push_null Avro.new_from) = Avro.lenL Avro.new_from + 1 ∧
    (Avro.push_null Avro.new_from).validity =
      some (List.replicate (Avro.lenL (Avro.push_null Avro.new_from) - 1) true ++ [false]) :=
  claim_C7.2.2.1 Avro.new_from (by decide) rfl

/-- C8: the implicit `DynMutableListArray` invariant — offsets nonempty
with first element 0 and monotonically non-decreasing, `len()` equals
`offsets.len() - 1`, and an allocated validity has exactly `len()` bits —
is established by `new_from` and preserved by every successful
`try_push_valid` and every `push_null` (the successful `assert!` inside
`try_push_valid` is exactly the child-never-shrinks precondition). -/
theorem claim_C8 :
    Avro.invL Avro.new_from ∧
    (∀ a, Avro.lenL a = a.offsets.length - 1) ∧
    (∀ O a n a', Avro.invL a → Avro.try_push_valid O a n = .ok a' → Avro.invL a') ∧
    (∀ a, Avro.invL a → Avro.invL (Avro.push_null a)) := by
  refine ⟨⟨by decide, rfl, rfl, ?_⟩, fun _ => rfl, ?_, ?_⟩
  · intro v h; simp [Avro.new_from] at h
  · intro O a n a' hinv hok
    obtain ⟨hne, hhd, hmono, hval⟩ := hinv
    have hpos : 1 ≤ a.offsets.length := List.length_pos.mpr hne
    obtain ⟨ha', hle, _⟩ := try_push_valid_ok hok
    rw [ha']
    refine ⟨by simp [hne], ?_, ?_, ?_⟩
    · obtain ⟨x, t, hx⟩ := List.exists_cons_of_ne_nil hne
      rw [hx] at hhd ⊢
      simpa using hhd
    · exact monoB_concat a.offsets _ hne hmono hle
    · intro v hv
      cases hA : a.validity with
      | none => rw [hA] at hv; exact absurd hv (by simp)
      | some w =>
        rw [hA] at hv
        have hw := hval w hA
        have hvw : w ++ [true] = v := by simpa using hv
        rw [← hvw]
        simp only [List.length_append, List.length_singleton]
        omega
  · intro a hinv
    obtain ⟨hne, hhd, hmono, hval⟩ := hinv
    have hpos : 1 ≤ a.offsets.length := List.length_pos.mpr hne
    unfold Avro.push_null
    cases hA : a.validity with
    | some v =>
      have hv := hval v hA
      refine ⟨by simp [hne], ?_, ?_, ?_⟩
      · obtain ⟨x, t, hx⟩ := List.exists_cons_of_ne_nil hne
        rw [hx] at hhd ⊢
        simpa using hhd
      · exact monoB_concat a.offsets _ hne hmono (le_refl _)
      · intro w hw
        have hvw : v ++ [false] = w := by simpa using hw
        rw [← hvw]
        simp only [List.length_append, List.length_singleton]
        omega
    | none =>
      refine ⟨by simp [hne], ?_, ?_, ?_⟩
      · obtain ⟨x, t, hx⟩ := List.exists_cons_of_ne_nil hne
        rw [hx] at hhd ⊢
        simpa using hhd
      · exact monoB_concat a.offsets _ hne hmono (le_refl _)
      · intro w hw
        have hw' : (List.replicate (a.offsets.length + 1 - 1) true).set
            (a.offsets.length + 1 - 1 - 1) false = w := by
          simpa using hw
        rw [← hw']
        simp only [List.length_set, List.length_replicate, List.length_append,
          List.length_singleton]

/-- C8 witness: the invariant holds after a `push_null` on a fresh builder. -/
theorem claim_C8_witness : Avro.invL (Avro.push_null Avro.new_from) :=
  claim_C8.2.2.2 Avro.new_from claim_C8.1

/-- C10: the nested binary decoder's `push_valid` is total on an exhausted
value iterator: in all four page states it appends the default empty byte
slice (no error, no panic), and the `Optional` and `OptionalDictionary`
states still push a `true` validity bit while the `Required` states leave
the validity untouched. -/
theorem claim_C10 (dict : List (List Nat)) (values : List (List Nat)) (validity : List Bool) :
    BinN.push_valid (.optional []) (values, validity) =
      (.optional [], (values ++ [[]], validity ++ [true])) ∧
    BinN.push_valid (.required []) (values, validity) =
      (.required [], (values ++ [[]], validity)) ∧
    BinN.push_valid (.requiredDictionary [] dict) (values, validity) =
      (.requiredDictionary [] dict, (values ++ [[]], validity)) ∧
    BinN.push_valid (.optionalDictionary [] dict) (values, validity) =
      (.optionalDictionary [] dict, (values ++ [[]], validity ++ [true])) :=
  ⟨rfl, rfl, rfl, rfl⟩

/-- C5: the serialized keys buffer appended by `serialize_keys_values` is a
single prefix byte equal to `bit_width = ceil(log2(max_key + 1))` — a value
in `[0, 32]` — followed by the hybrid-RLE encoding (abstract `encode`) of
the key sequence in which every position whose unified-validity bit is
false has been skipped. -/
theorem claim_C5 (keys : List Nat) (validity : Option (List Bool))
    (encode : List Nat → Nat → List Nat) (buffer : List Nat) :
    PqW.serialize_keys_values keys validity encode buffer =
      (buffer ++ [PqW.bitWidthOf keys validity]) ++
        encode (PqW.writtenKeys keys validity) (PqW.bitWidthOf keys validity) ∧
    PqW.bitWidthOf keys validity ≤ 32 := by
  constructor
  · cases validity <;> rfl
  · have hall : ∀ x ∈ PqW.writtenKeys keys validity, x < 2 ^ 32 := by
      intro x hx
      cases validity with
      | none =>
        simp only [PqW.writtenKeys, List.mem_map] at hx
        obtain ⟨y, _, rfl⟩ := hx
        exact Nat.mod_lt _ (by norm_num)
      | some v =>
        simp only [PqW.writtenKeys, List.mem_filterMap] at hx
        obtain ⟨⟨k, b⟩, hmem, hkb⟩ := hx
        cases b with
        | false => simp at hkb
        | true =>
          simp at hkb
          subst hkb
          have hk := (List.mem_zip hmem).1
          simp only [List.mem_map] at hk
          obtain ⟨y, _, rfl⟩ := hk
          exact Nat.mod_lt _ (by norm_num)
    have hmax : (PqW.writtenKeys keys validity).foldl max 0 < 2 ^ 32 :=
      foldl_max_lt _ 0 (by norm_num) hall
    unfold PqW.bitWidthOf PqW.get_bit_width
    split_ifs with h0
    · exact Nat.zero_le 32
    · have hlog := (Nat.log2_lt h0).mpr hmax
      omega

/-- C3: dense `GrowableUnion::extend(i, start, len)` appends the
`types[start..start+len]` and `offsets[start..start+len]` slices of source
`i` verbatim (full length `len` when in range) and, pair by pair in order,
extends the child builder for type `t` by one element at position `o` of
`source[i].fields[t]`; instantiated on the spec's scenario (source types
`[0,1,0]`, offsets `[0,0,1]`, child0 `[10,20]`, child1 `["x"]`),
`extend(0, 1, 2)` on an empty builder yields types `[1,0]`, offsets
`[0,1]`, child0 `[20]`, child1 `["x"]`. -/
theorem claim_C3 :
    (∀ (V χ : Type) [Inhabited χ] (arrays : List (GU.UnionSrcM V))
        (ce : Nat → χ → Nat → Nat → Nat → χ) (g : GU.GUnionM χ) (xs : List Int)
        (index start len : Nat),
      g.offsets = some xs →
      index < arrays.length →
      start + len ≤ (arrays.getD index ⟨[], [], []⟩).types.length →
      start + len ≤ (arrays.getD index ⟨[], [], []⟩).offsets.length →
      GU.extend arrays ce g index start len =
        ⟨g.types ++ (((arrays.getD index ⟨[], [], []⟩).types.drop start).take len),
          some (xs ++ (((arrays.getD index ⟨[], [], []⟩).offsets.drop start).take len)),
          (((((arrays.getD index ⟨[], [], []⟩).types.drop start).take len).zip
              (((arrays.getD index ⟨[], [], []⟩).offsets.drop start).take len)).foldl
            (fun fs p =>
              fs.set p.1.toNat (ce p.1.toNat (fs.getD p.1.toNat default) index p.2.toNat 1))
            g.fields)⟩ ∧
      (((arrays.getD index ⟨[], [], []⟩).types.drop start).take len).length = len ∧
      (((arrays.getD index ⟨[], [], []⟩).offsets.drop start).take len).length = len) ∧
    GU.extend [GU.srcA] (GU.listChildExtend [GU.srcA]) GU.emptyGU 0 1 2 =
      ⟨[1, 0], some [0, 1], [[GU.Val.ival 20], [GU.Val.sval 120]]⟩ := by
  constructor
  · intro V χ inst arrays ce g xs index start len hoff hidx hts hos
    refine ⟨?_, ?_, ?_⟩
    · simp only [GU.extend, hoff]
    · simp only [List.length_take, List.length_drop]
      omega
    · simp only [List.length_take, List.length_drop]
      omega
  · decide

/-- C3 witness: the general dense clause applied to the scenario source. -/
theorem claim_C3_witness :
    (((([GU.srcA].getD 0 ⟨[], [], []⟩).types.drop 1).take 2).length = 2) :=
  (claim_C3.1 GU.Val (List GU.Val) [GU.srcA] (GU.listChildExtend [GU.srcA]) GU.emptyGU
    [] 0 1 2 rfl (by decide) (by decide) (by decide)).2.1

/-- C1 counterexample: with keys `[1, 0]` carrying no validity and values
validity `[true, false]`, `normalized_validity` reuses the values' bitmap
verbatim, so row 0 is marked valid even though `values.is_valid(keys[0]) =
values.is_valid(1) = false`; the claim's characterization fails. -/
theorem claim_C1_counterexample : ¬ PqW.unifiedClaim PqW.cexC1 := by
  intro h
  exact absurd (h 0 (by decide)) (by decide)

/-- C1 (amended): the unified validity equals the claim's row-wise
characterization — row `i` valid iff the key at `i` is valid and
`values.is_valid(keys[i])` — when the values' validity is absent and when
both bitmaps are present (where it is the projection through the key
mapping); but when exactly one bitmap is present that bitmap is reused
verbatim as the unified validity, so in the values-only case row `i`'s
validity is `values.is_valid(i)`, not `values.is_valid(keys[i])`. -/
theorem claim_C1 (a : PqW.DictArrM) :
    (a.keyValidity = none → a.valuesValidity = none → PqW.normalized_validity a = none) ∧
    (∀ rhs, a.keyValidity = none → a.valuesValidity = some rhs →
      PqW.normalized_validity a = some rhs) ∧
    (∀ lhs, a.keyValidity = some lhs → a.valuesValidity = none →
      PqW.normalized_validity a = some lhs) ∧
    (a.valuesValidity = none → PqW.unifiedClaim a) ∧
    (∀ lhs rhs, a.keyValidity = some lhs → a.valuesValidity = some rhs →
      lhs.length = a.keyVals.length → PqW.unifiedClaim a) := by
  refine ⟨?_, ?_, ?_, ?_, ?_⟩
  · intro hk hv; unfold PqW.normalized_validity; rw [hk, hv]
  · intro rhs hk hv; unfold PqW.normalized_validity; rw [hk, hv]
  · intro lhs hk hv; unfold PqW.normalized_validity; rw [hk, hv]
  · intro hv i hi
    unfold PqW.unifiedBit PqW.isValidKey PqW.valuesIsValid PqW.normalized_validity
    cases hk : a.keyValidity with
    | none => rw [hv]; simp
    | some lhs => rw [hv]; simp
  · intro lhs rhs hk hv hlen i hi
    unfold PqW.unifiedBit PqW.isValidKey PqW.valuesIsValid PqW.normalized_validity
      PqW.keysIter
    rw [hk, hv]
    simp only [Option.map_some', Option.getD_some, List.map_map]
    rw [getD_map_zip _ false a.keyVals lhs i 0 false hi hlen.symm]
    cases hb : lhs.getD i false <;> simp [hb]

/-- C1 witness: the both-bitmaps-present projection on a concrete array. -/
theorem claim_C1_witness :
    PqW.unifiedBit PqW.bothC1 0 =
      (PqW.isValidKey PqW.bothC1 0 &&
        PqW.valuesIsValid PqW.bothC1 (PqW.bothC1.keyVals.getD 0 0)) :=
  (claim_C1 PqW.bothC1).2.2.2.2 [true, true] [true, false] rfl rfl (by decide) 0 (by decide)

/-- C4 counterexample: with no rows owed (`remaining = 0`), an empty queue
and a `Dict` page waiting in the stream, `next` returns `None` without
fetching the page — the claim as stated would require the page to be
fetched, the dictionary to be updated, and `MaybeNext::More` returned. -/
theorem claim_C4_counterexample :
    PqN.next PqN.testDecoder PqN.initP (some 2) PqN.cexState = (.none, PqN.cexState) ∧
    (PqN.next PqN.testDecoder PqN.initP (some 2) PqN.cexState).1 ≠ .more := by
  constructor <;> decide

/-- `Nested::push` grows the builder by exactly one element. -/
theorem push_len (nest : PqN.NestedB) (v : Int) (b : Bool) :
    (nest.push v b).len = nest.len + 1 := by
  cases nest <;> simp [PqN.NestedB.push, PqN.NestedB.len]

/-- `Nested::push` does not change `is_required`. -/
theorem push_isRequired (nest : PqN.NestedB) (v : Int) (b : Bool) :
    (nest.push v b).isRequired = nest.isRequired := by
  cases nest <;> rfl

/-- `Nested::push` does not change `is_nullable`. -/
theorem push_isNullable (nest : PqN.NestedB) (v : Int) (b : Bool) :
    (nest.push v b).isNullable = nest.isNullable := by
  cases nest <;> rfl


/-- One-step unfolding of the depth walk on an empty suffix. -/
theorem depthLoop_nil {ρ DP St Di De : Type} (D : PqN.NDecoder ρ DP St Di De)
    (rep defl : Nat) (cumRep cumSum : List Nat) (maxDepth d : Nat)
    (vc : List Int) (req : Bool) (vs : St) (dec : De) :
    PqN.depthLoop D rep defl cumRep cumSum maxDepth d [] vc req vs dec =
      ⟨[], vc, vs, dec⟩ := rfl

/-- One-step unfolding of the depth walk on a nonempty suffix. -/
theorem depthLoop_cons {ρ DP St Di De : Type} (D : PqN.NDecoder ρ DP St Di De)
    (rep defl : Nat) (cumRep cumSum : List Nat) (maxDepth d : Nat)
    (nest : PqN.NestedB) (rest : List PqN.NestedB)
    (vc : List Int) (req : Bool) (vs : St) (dec : De) :
    PqN.depthLoop D rep defl cumRep cumSum maxDepth d (nest :: rest) vc req vs dec =
      (if req || PqN.rightLev cumRep cumSum rep defl d then
        let isValid : Bool := nest.isNullable && decide (cumSum.getD d 0 < defl)
        let nest1 := nest.push (vc.getD d 0) isValid
        let vc1 := if 0 < d then vc.set (d - 1) (Int.ofNat nest1.len) else vc
        let req1 := nest1.isRequired && !isValid
        let vd :=
          if d = maxDepth then
            (if PqN.rightLev cumRep cumSum rep defl d &&
                (decide (defl ≠ cumSum.getD d 0) || !nest1.isNullable)
             then D.pushValid vs dec else (vs, D.pushNull dec))
          else (vs, dec)
        let r := PqN.depthLoop D rep defl cumRep cumSum maxDepth (d + 1) rest vc1 req1 vd.1 vd.2
        ⟨nest1 :: r.nested, r.vc, r.vs, r.dec⟩
      else
        let r := PqN.depthLoop D rep defl cumRep cumSum maxDepth (d + 1) rest vc req vs dec
        ⟨nest :: r.nested, r.vc, r.vs, r.dec⟩) := rfl

/-- Characterization of the per-pair depth walk over a builder suffix
starting at depth `d0` with incoming `is_required` flag `req0` (the walk's
total depth count is `n`): builder `d0 + j` grows by one exactly when the
carried `is_required` or `right_level` holds there, and at the leaf the
decoder pushes a value or a null placeholder according to the claimed
condition (nothing when the leaf is not visited at all). -/
theorem depthLoop_spec {ρ DP St Di De : Type} (D : PqN.NDecoder ρ DP St Di De)
    (cumRep cumSum : List Nat) (rep defl n : Nat) :
    ∀ (suffix : List PqN.NestedB) (d0 : Nat) (req0 : Bool) (vc : List Int) (vs : St) (dec : De),
      d0 + suffix.length = n →
      (∀ j, j < suffix.length →
        ((PqN.depthLoop D rep defl cumRep cumSum (n - 1) d0 suffix vc req0 vs dec).nested.getD
            j PqN.nb0).len
          = (suffix.getD j PqN.nb0).len +
            (if PqN.reqCarried cumRep cumSum rep defl suffix d0 req0 j
                || PqN.rightLev cumRep cumSum rep defl (d0 + j) then 1 else 0)) ∧
      (suffix ≠ [] →
        ((PqN.depthLoop D rep defl cumRep cumSum (n - 1) d0 suffix vc req0 vs dec).vs,
         (PqN.depthLoop D rep defl cumRep cumSum (n - 1) d0 suffix vc req0 vs dec).dec) =
          (if PqN.reqCarried cumRep cumSum rep defl suffix d0 req0 (suffix.length - 1)
              || PqN.rightLev cumRep cumSum rep defl (n - 1) then
            (if PqN.rightLev cumRep cumSum rep defl (n - 1) &&
                (decide (defl ≠ cumSum.getD (n - 1) 0)
                  || !(suffix.getD (suffix.length - 1) PqN.nb0).isNullable) then
              D.pushValid vs dec
            else (vs, D.pushNull dec))
          else (vs, dec))) := by
  intro suffix
  induction suffix with
  | nil =>
    intro d0 req0 vc vs dec _
    exact ⟨fun j hj => absurd hj (by simp), fun h => absurd rfl h⟩
  | cons nest rest ih =>
    intro d0 req0 vc vs dec hlen
    have hlen' : (d0 + 1) + rest.length = n := by
      simp only [List.length_cons] at hlen
      omega
    by_cases hc : (req0 || PqN.rightLev cumRep cumSum rep defl d0) = true
    · -- the depth-d0 builder is pushed
      rw [depthLoop_cons, if_pos hc]
      simp only []
      cases rest with
      | nil =>
        have hd0 : d0 = n - 1 := by
          simp only [List.length_cons, List.length_nil] at hlen
          omega
        subst hd0
        constructor
        · intro j hj
          have hj0 : j = 0 := by simpa using hj
          subst hj0
          simp only [depthLoop_nil, List.getD_cons_zero, PqN.reqCarried, Nat.add_zero,
            push_len]
          rw [if_pos hc]
        · intro _
          simp only [depthLoop_nil, List.length_cons, List.length_nil, Nat.sub_self,
            List.getD_cons_zero, PqN.reqCarried, push_isNullable]
          rw [if_pos hc]
          simp only [if_true]
      | cons r0 rs =>
        have hd0 : ¬ d0 = n - 1 := by
          simp only [List.length_cons] at hlen
          omega
        rw [if_neg hd0]
        constructor
        · intro j hj
          cases j with
          | zero =>
            simp only [List.getD_cons_zero, PqN.reqCarried, Nat.add_zero, push_len]
            rw [if_pos hc]
          | succ k =>
            have hk : k < (r0 :: rs).length := by
              simp only [List.length_cons] at hj ⊢
              omega
            have harith : d0 + (k + 1) = (d0 + 1) + k := by omega
            simp only [List.getD_cons_succ, PqN.reqCarried, harith]
            rw [if_pos hc,
              ← push_isRequired nest (vc.getD d0 0)
                (nest.isNullable && decide (cumSum.getD d0 0 < defl))]
            exact (ih (d0 + 1) _ _ _ _ hlen').1 k hk
        · intro _
          simp only [List.length_cons, Nat.add_sub_cancel, List.getD_cons_succ,
            PqN.reqCarried]
          rw [if_pos hc,
            ← push_isRequired nest (vc.getD d0 0)
              (nest.isNullable && decide (cumSum.getD d0 0 < defl))]
          exact (ih (d0 + 1) _ _ _ _ hlen').2 (by simp)
    · -- the depth-d0 builder is skipped; the flag is carried unchanged
      rw [depthLoop_cons, if_neg hc]
      simp only []
      cases rest with
      | nil =>
        have hd0 : d0 = n - 1 := by
          simp only [List.length_cons, List.length_nil] at hlen
          omega
        subst hd0
        constructor
        · intro j hj
          have hj0 : j = 0 := by simpa using hj
          subst hj0
          simp only [depthLoop_nil, List.getD_cons_zero, PqN.reqCarried, Nat.add_zero]
          rw [if_neg (by simpa using hc)]
          rfl
        · intro _
          simp only [depthLoop_nil, List.length_cons, List.length_nil, Nat.sub_self,
            List.getD_cons_zero, PqN.reqCarried]
          rw [if_neg (by simpa using hc)]
      | cons r0 rs =>
        constructor
        · intro j hj
          cases j with
          | zero =>
            simp only [List.getD_cons_zero, PqN.reqCarried, Nat.add_zero]
            rw [if_neg (by simpa using hc)]
            rfl
          | succ k =>
            have hk : k < (r0 :: rs).length := by
              simp only [List.length_cons] at hj ⊢
              omega
            have harith : d0 + (k + 1) = (d0 + 1) + k := by omega
            simp only [List.getD_cons_succ, PqN.reqCarried, harith]
            rw [if_neg hc]
            exact (ih (d0 + 1) _ _ _ _ hlen').1 k hk
        · intro _
          simp only [List.length_cons, Nat.add_sub_cancel, List.getD_cons_succ,
            PqN.reqCarried]
          rw [if_neg hc]
          exact (ih (d0 + 1) _ _ _ _ hlen').2 (by simp)

/-- C2: in the nested-level machine's depth walk for one consumed
`(rep, def)` pair, with `right_level d = (rep ≤ cum_rep[d]) ∧
(def ≥ cum_sum[d])` over the machine's cumulative tables, the depth-`d`
builder receives a push (its length grows by one) iff `is_required`
carried from an ancestor or `right_level d` holds; and at the leaf depth
`max_depth = n - 1`, when it is visited, the primitive decoder pushes a
value iff `right_level ∧ (def ≠ cum_sum[max_depth] ∨ ¬nullable)` and a
null placeholder otherwise. -/
theorem claim_C2 {ρ DP St Di De : Type} (D : PqN.NDecoder ρ DP St Di De)
    (ns : List PqN.NestedB) (vc : List Int) (vs : St) (dec : De) (rep defl : Nat)
    (hne : ns ≠ []) :
    (∀ d, d < ns.length →
      ((PqN.depthLoop D rep defl (PqN.cumRepOf ns) (PqN.cumSumOf ns) (ns.length - 1) 0 ns vc
          false vs dec).nested.getD d PqN.nb0).len
        = (ns.getD d PqN.nb0).len +
          (if PqN.reqCarried (PqN.cumRepOf ns) (PqN.cumSumOf ns) rep defl ns 0 false d
              || PqN.rightLev (PqN.cumRepOf ns) (PqN.cumSumOf ns) rep defl d then 1 else 0)) ∧
    ((PqN.depthLoop D rep defl (PqN.cumRepOf ns) (PqN.cumSumOf ns) (ns.length - 1) 0 ns vc
        false vs dec).vs,
     (PqN.depthLoop D rep defl (PqN.cumRepOf ns) (PqN.cumSumOf ns) (ns.length - 1) 0 ns vc
        false vs dec).dec) =
      (if PqN.reqCarried (PqN.cumRepOf ns) (PqN.cumSumOf ns) rep defl ns 0 false
          (ns.length - 1)
          || PqN.rightLev (PqN.cumRepOf ns) (PqN.cumSumOf ns) rep defl (ns.length - 1) then
        (if PqN.rightLev (PqN.cumRepOf ns) (PqN.cumSumOf ns) rep defl (ns.length - 1) &&
            (decide (defl ≠ (PqN.cumSumOf ns).getD (ns.length - 1) 0)
              || !(ns.getD (ns.length - 1) PqN.nb0).isNullable) then
          D.pushValid vs dec
        else (vs, D.pushNull dec))
      else (vs, dec)) := by
  have h := depthLoop_spec D (PqN.cumRepOf ns) (PqN.cumSumOf ns) rep defl ns.length ns 0
    false vc vs dec (by simp)
  exact ⟨fun d hd => by simpa using h.1 d hd, h.2 hne⟩

/-- C2 witness: the nullable-primitive-under-list stack at `(rep, def) =
(0, 2)`: the leaf builder is pushed because `right_level` holds at depth 1. -/
theorem claim_C2_witness :
    ((PqN.depthLoop PqN.testDecoder 0 2 (PqN.cumRepOf PqN.ns2) (PqN.cumSumOf PqN.ns2)
        (PqN.ns2.length - 1) 0 PqN.ns2 [0, 0] false () []).nested.getD 1 PqN.nb0).len
      = (PqN.ns2.getD 1 PqN.nb0).len +
        (if PqN.reqCarried (PqN.cumRepOf PqN.ns2) (PqN.cumSumOf PqN.ns2) 0 2 PqN.ns2 0 false 1
            || PqN.rightLev (PqN.cumRepOf PqN.ns2) (PqN.cumSumOf PqN.ns2) 0 2 1 then 1
         else 0) :=
  (claim_C2 PqN.testDecoder PqN.ns2 [0, 0] () [] 0 2 (by decide)).1 1 (by decide)

/-- The depth walk keeps the builder stack nonempty. -/
theorem depthLoop_ne_nil {ρ DP St Di De : Type} (D : PqN.NDecoder ρ DP St Di De)
    (rep defl : Nat) (cumRep cumSum : List Nat) (maxD d : Nat)
    (ns : List PqN.NestedB) (vc : List Int) (req : Bool) (vs : St) (dec : De)
    (h : ns ≠ []) :
    (PqN.depthLoop D rep defl cumRep cumSum maxD d ns vc req vs dec).nested ≠ [] := by
  obtain ⟨x, t, rfl⟩ := List.exists_cons_of_ne_nil h
  rw [depthLoop_cons]
  split <;> simp

/-- A `scanl` from 0 starts with 0. -/
theorem scanl_head (l : List Nat) : (List.scanl (· + ·) 0 l).getD 0 0 = 0 := by
  cases l <;> rfl

/-- The outermost builder (depth 0) is pushed by the depth walk exactly
when `rep = 0`, because `cum_rep[0] = cum_sum[0] = 0`. -/
theorem depthLoop_head_len {ρ DP St Di De : Type} (D : PqN.NDecoder ρ DP St Di De)
    (cumRep cumSum : List Nat) (maxD : Nat) (rep defl : Nat)
    (hcr : cumRep.getD 0 0 = 0) (hcs : cumSum.getD 0 0 = 0)
    (h : PqN.NestedB) (t : List PqN.NestedB) (vc : List Int) (vs : St) (dec : De) :
    PqN.nestedLen
        (PqN.depthLoop D rep defl cumRep cumSum maxD 0 (h :: t) vc false vs dec).nested
      = h.len + (if rep = 0 then 1 else 0) := by
  rw [depthLoop_cons]
  by_cases hrep : rep = 0
  · have hcond : (false || PqN.rightLev cumRep cumSum rep defl 0) = true := by
      simp only [PqN.rightLev, hcr, hcs, hrep, Bool.false_or, Bool.and_eq_true,
        decide_eq_true_eq]
      exact ⟨Nat.le_refl 0, Nat.zero_le defl⟩
    rw [if_pos hcond]
    simp only [PqN.nestedLen, List.headD_cons, push_len, hrep, if_pos]
  · have hcond : ¬ (false || PqN.rightLev cumRep cumSum rep defl 0) = true := by
      simp only [PqN.rightLev, hcr, hcs, Bool.false_or, Bool.and_eq_true,
        decide_eq_true_eq, Nat.le_zero]
      intro hcontra
      exact hrep hcontra.1
    rw [if_neg hcond]
    simp only [PqN.nestedLen, List.headD_cons, hrep, if_neg]
    rfl

/-- The pair loop never consumes more pairs than it was given. -/
theorem go_pairs_le {ρ DP St Di De : Type} (D : PqN.NDecoder ρ DP St Di De)
    (cumRep cumSum : List Nat) (maxD : Nat) :
    ∀ (pairs : List (Nat × Nat)) (vs : St) (ns : List PqN.NestedB) (vc : List Int)
      (dec : De) (rows additional : Nat),
      (PqN.extendOffsets2Go D cumRep cumSum maxD pairs vs ns vc dec rows
        additional).pairs.length ≤ pairs.length := by
  intro pairs
  induction pairs with
  | nil => intro vs ns vc dec rows additional; simp [PqN.extendOffsets2Go]
  | cons p rest ih =>
    intro vs ns vc dec rows additional
    obtain ⟨rep, defl⟩ := p
    rw [PqN.extendOffsets2Go]
    split_ifs with h1 h2 h3 <;>
      first
        | simpa using Nat.le_succ rest.length
        | exact Nat.le_trans (ih _ _ _ _ _ _) (Nat.le_succ rest.length)

/-- `extend_offsets2` consumes at least one pair from a nonempty stream. -/
theorem extendOffsets2_pairs_lt {ρ DP St Di De : Type} (D : PqN.NDecoder ρ DP St Di De)
    (pairs : List (Nat × Nat)) (vs : St) (ns : List PqN.NestedB) (dec : De)
    (additional : Nat) (h : pairs ≠ []) :
    (PqN.extendOffsets2 D pairs vs ns dec additional).pairs.length < pairs.length := by
  obtain ⟨p, rest, rfl⟩ := List.exists_cons_of_ne_nil h
  obtain ⟨rep, defl⟩ := p
  rw [PqN.extendOffsets2, PqN.extendOffsets2Go]
  split_ifs with h1 h2 h3 <;>
    first
      | simpa using Nat.lt_succ_self rest.length
      | exact Nat.lt_succ_of_le (go_pairs_le D _ _ _ _ _ _ _ _ _ _)

/-- Row accounting for the pair loop: starting from `rows` counted rows
with the break invariant (`rows` below `additional`, or equal to it with
the next pair not starting a row), the loop appends `k` more rows to the
outermost builder with `rows + k ≤ additional`, and keeps the stack
nonempty. -/
theorem go_rows {ρ DP St Di De : Type} (D : PqN.NDecoder ρ DP St Di De)
    (cumRep cumSum : List Nat) (maxD : Nat)
    (hcr : cumRep.getD 0 0 = 0) (hcs : cumSum.getD 0 0 = 0) :
    ∀ (pairs : List (Nat × Nat)) (vs : St) (ns : List PqN.NestedB) (vc : List Int)
      (dec : De) (rows additional : Nat),
      ns ≠ [] →
      rows ≤ additional →
      (rows = additional → ((pairs.head?.map Prod.fst).getD 0) ≠ 0) →
      ∃ k,
        PqN.nestedLen (PqN.extendOffsets2Go D cumRep cumSum maxD pairs vs ns vc dec rows
          additional).nested = PqN.nestedLen ns + k ∧
        rows + k ≤ additional ∧
        (PqN.extendOffsets2Go D cumRep cumSum maxD pairs vs ns vc dec rows
          additional).nested ≠ [] := by
  intro pairs
  induction pairs with
  | nil =>
    intro vs ns vc dec rows additional hne hrows _
    exact ⟨0, by simp [PqN.extendOffsets2Go], by simpa using hrows, by
      simpa [PqN.extendOffsets2Go] using hne⟩
  | cons p rest ih =>
    intro vs ns vc dec rows additional hne hrows hhead
    obtain ⟨rep, defl⟩ := p
    obtain ⟨h, t, rfl⟩ := List.exists_cons_of_ne_nil hne
    have hdl := depthLoop_head_len D cumRep cumSum maxD rep defl hcr hcs h t vc vs dec
    have hdlne := depthLoop_ne_nil D rep defl cumRep cumSum maxD 0 (h :: t) vc false vs dec
      (by simp)
    rw [PqN.extendOffsets2Go]
    by_cases hrep : rep = 0
    · have hlt : rows < additional := by
        rcases Nat.eq_or_lt_of_le hrows with heq | hlt
        · exact absurd hrep (by simpa using hhead heq)
        · exact hlt
      have hdl1 : PqN.nestedLen
          (PqN.depthLoop D rep defl cumRep cumSum maxD 0 (h :: t) vc false vs
            dec).nested = h.len + 1 := by
        rw [hdl, if_pos hrep]
      rw [if_pos hrep]
      by_cases hbr : ((rest.head?.map Prod.fst).getD 0 = 0 ∧ rows + 1 = additional)
      · rw [if_pos hbr]
        exact ⟨1, hdl1, by omega, hdlne⟩
      · rw [if_neg hbr]
        have hnext : rows + 1 = additional → ((rest.head?.map Prod.fst).getD 0) ≠ 0 := by
          intro heq h0
          exact hbr ⟨h0, heq⟩
        obtain ⟨k', h1, h2, h3⟩ := ih
          (PqN.depthLoop D rep defl cumRep cumSum maxD 0 (h :: t) vc false vs dec).vs
          (PqN.depthLoop D rep defl cumRep cumSum maxD 0 (h :: t) vc false vs dec).nested
          (PqN.depthLoop D rep defl cumRep cumSum maxD 0 (h :: t) vc false vs dec).vc
          (PqN.depthLoop D rep defl cumRep cumSum maxD 0 (h :: t) vc false vs dec).dec
          (rows + 1) additional hdlne (by omega) hnext
        refine ⟨1 + k', ?_, by omega, h3⟩
        rw [h1, hdl1]
        show (h.len + 1) + k' = h.len + (1 + k')
        omega
    · have hdl0 : PqN.nestedLen
          (PqN.depthLoop D rep defl cumRep cumSum maxD 0 (h :: t) vc false vs
            dec).nested = h.len + 0 := by
        rw [hdl, if_neg hrep]
      rw [if_neg hrep]
      by_cases hbr : ((rest.head?.map Prod.fst).getD 0 = 0 ∧ rows = additional)
      · rw [if_pos hbr]
        exact ⟨0, hdl0, by omega, hdlne⟩
      · rw [if_neg hbr]
        have hnext : rows = additional → ((rest.head?.map Prod.fst).getD 0) ≠ 0 := by
          intro heq h0
          exact hbr ⟨h0, heq⟩
        obtain ⟨k', h1, h2, h3⟩ := ih
          (PqN.depthLoop D rep defl cumRep cumSum maxD 0 (h :: t) vc false vs dec).vs
          (PqN.depthLoop D rep defl cumRep cumSum maxD 0 (h :: t) vc false vs dec).nested
          (PqN.depthLoop D rep defl cumRep cumSum maxD 0 (h :: t) vc false vs dec).vc
          (PqN.depthLoop D rep defl cumRep cumSum maxD 0 (h :: t) vc false vs dec).dec
          rows additional hdlne hrows hnext
        refine ⟨k', ?_, by omega, h3⟩
        rw [h1, hdl0]
        show (h.len + 0) + k' = h.len + k'
        omega

/-- `cum_rep[0] = 0`. -/
theorem cumRepOf_head (ns : List PqN.NestedB) : (PqN.cumRepOf ns).getD 0 0 = 0 :=
  scanl_head _

/-- `cum_sum[0] = 0`. -/
theorem cumSumOf_head (ns : List PqN.NestedB) : (PqN.cumSumOf ns).getD 0 0 = 0 :=
  scanl_head _

/-- `init_nested` produces a nonempty stack from a nonempty descriptor list. -/
theorem initNested_ne_nil (init : List PqN.InitNested) (h : init ≠ []) :
    PqN.initNestedF init ≠ [] := by
  obtain ⟨i, t, rfl⟩ := List.exists_cons_of_ne_nil h
  simp [PqN.initNestedF]

/-- A freshly initialized stack holds zero rows. -/
theorem initNested_len0 (init : List PqN.InitNested) (h : init ≠ []) :
    PqN.nestedLen (PqN.initNestedF init) = 0 := by
  obtain ⟨i, t, rfl⟩ := List.exists_cons_of_ne_nil h
  cases i <;> rename_i b <;> cases b <;> rfl

/-- Row count of a queue extended by one chunk. -/
theorem totalRows_concat {De : Type} (l : List (List PqN.NestedB × De))
    (x : List PqN.NestedB × De) :
    PqN.totalRows (l ++ [x]) = PqN.totalRows l + PqN.nestedLen x.1 := by
  simp [PqN.totalRows]

/-- A list decomposes as its `dropLast` plus its last element. -/
theorem getLast?_decomp {α : Type} :
    ∀ (l : List α) (b : α), l.getLast? = some b → l = l.dropLast ++ [b] := by
  intro l
  induction l with
  | nil => intro b hb; simp at hb
  | cons a t ih =>
    intro b hb
    cases t with
    | nil =>
      simp at hb
      subst hb
      rfl
    | cons c u =>
      have hb' : (c :: u).getLast? = some b := by
        simpa [List.getLast?_cons_cons] using hb
      exact congrArg (List.cons a) (ih b hb')

/-- Only the empty list has no last element. -/
theorem getLast?_none {α : Type} : ∀ (l : List α), l.getLast? = none → l = [] := by
  intro l
  induction l with
  | nil => intro _; rfl
  | cons a t ih =>
    intro h
    cases t with
    | nil => simp at h
    | cons b u =>
      rw [List.getLast?_cons_cons] at h
      exact absurd (ih h) (by simp)

/-- Invariants of the chunking loop at the end of `extend`: every chunk it
queues holds at most `chunk_size` rows, and `remaining` is decremented by
exactly the rows appended (never below zero). -/
theorem extendLoop_spec {ρ DP St Di De : Type} (D : PqN.NDecoder ρ DP St Di De)
    (init : List PqN.InitNested) (csv : Nat)
    (hinit : init ≠ []) (hcs1 : 1 ≤ csv) :
    ∀ (N : Nat) (pairs : List (Nat × Nat)) (vs : St)
      (items : List (List PqN.NestedB × De)) (remaining : Nat),
      pairs.length ≤ N →
      (∀ it ∈ items, PqN.nestedLen it.1 ≤ csv) →
      (∀ it ∈ (PqN.extendLoop D csv init pairs vs items remaining).1,
        PqN.nestedLen it.1 ≤ csv) ∧
      (PqN.extendLoop D csv init pairs vs items remaining).2 ≤ remaining ∧
      PqN.totalRows (PqN.extendLoop D csv init pairs vs items remaining).1 +
          (PqN.extendLoop D csv init pairs vs items remaining).2 =
        PqN.totalRows items + remaining := by
  intro N
  induction N with
  | zero =>
    intro pairs vs items remaining hN hb
    have hp : pairs = [] := List.eq_nil_of_length_eq_zero (Nat.le_zero.mp hN)
    subst hp
    rw [PqN.extendLoop, dif_neg (by simp)]
    exact ⟨hb, le_refl _, rfl⟩
  | succ M ihm =>
    intro pairs vs items remaining hN hb
    by_cases hcond : pairs ≠ [] ∧ 0 < remaining
    · rw [PqN.extendLoop, dif_pos hcond]
      simp only [PqN.extendOffsets2]
      set G := PqN.extendOffsets2Go D (PqN.cumRepOf (PqN.initNestedF init))
        (PqN.cumSumOf (PqN.initNestedF init)) ((PqN.initNestedF init).length - 1) pairs vs
        (PqN.initNestedF init) (PqN.valuesCountOf (PqN.initNestedF init))
        (D.withCapacity 0) 0 (csv.min remaining) with hG
      have hadd1 : 1 ≤ csv.min remaining := Nat.le_min.mpr ⟨hcs1, hcond.2⟩
      have hminl : csv.min remaining ≤ csv := Nat.min_le_left csv remaining
      have hminr : csv.min remaining ≤ remaining := Nat.min_le_right csv remaining
      obtain ⟨k, hk1, hk2, _⟩ := go_rows D (PqN.cumRepOf (PqN.initNestedF init))
        (PqN.cumSumOf (PqN.initNestedF init)) ((PqN.initNestedF init).length - 1)
        (cumRepOf_head _) (cumSumOf_head _) pairs vs (PqN.initNestedF init)
        (PqN.valuesCountOf (PqN.initNestedF init)) (D.withCapacity 0) 0
        (csv.min remaining) (initNested_ne_nil init hinit) (Nat.zero_le _)
        (fun heq => absurd heq (by omega))
      rw [initNested_len0 init hinit] at hk1
      have hlen' : G.pairs.length ≤ M := by
        have hlt : G.pairs.length < pairs.length :=
          extendOffsets2_pairs_lt D pairs vs (PqN.initNestedF init)
            (D.withCapacity 0) (csv.min remaining) hcond.1
        omega
      have hbounds' : ∀ it ∈ items ++ [(G.nested, G.dec)], PqN.nestedLen it.1 ≤ csv := by
        intro it hit
        rcases List.mem_append.mp hit with hin | hin
        · exact hb it hin
        · have hx := List.mem_singleton.mp hin
          subst hx
          simp only []
          rw [hk1]
          omega
      have hres := ihm G.pairs G.vs (items ++ [(G.nested, G.dec)])
        (remaining - PqN.nestedLen G.nested) hlen' hbounds'
      refine ⟨hres.1, ?_, ?_⟩
      · have h2 := hres.2.1
        have h2b : remaining - PqN.nestedLen G.nested ≤ remaining := Nat.sub_le _ _
        omega
      · have h3 := hres.2.2
        rw [totalRows_concat] at h3
        simp only [] at h3
        rw [hk1] at h3 ⊢
        omega
    · rw [PqN.extendLoop, dif_neg hcond]
      exact ⟨hb, le_refl _, rfl⟩

/-- C9: after every successful call to the nested `extend` (invoked as the
reader does: rows still owed, every queued chunk within `chunk_size` and
the back chunk not yet full), every chunk in the queue holds at most
`chunk_size` rows, and `remaining` is decremented by exactly the total
number of rows appended across all chunks — so it never goes below zero. -/
theorem claim_C9 {ρ DP St Di De : Type} (D : PqN.NDecoder ρ DP St Di De)
    (page : PqN.DataPageM ρ) (init : List PqN.InitNested)
    (items : List (List PqN.NestedB × De)) (dict : Option Di)
    (remaining csv : Nat) (items' : List (List PqN.NestedB × De)) (remaining' : Nat)
    (hinit : init ≠ []) (hcs1 : 1 ≤ csv) (hrem : 1 ≤ remaining)
    (hne : ∀ it ∈ items, it.1 ≠ [])
    (hbound : ∀ it ∈ items, PqN.nestedLen it.1 ≤ csv)
    (hback : ∀ b, items.getLast? = some b → PqN.nestedLen b.1 < csv)
    (hok : PqN.extend D page init items dict remaining (some csv) =
      Except.ok (items', remaining')) :
    (∀ it ∈ items', PqN.nestedLen it.1 ≤ csv) ∧
    remaining' ≤ remaining ∧
    PqN.totalRows items' + remaining' = PqN.totalRows items + remaining := by
  cases hbs : D.buildState page dict with
  | error e =>
    rw [PqN.extend, hbs] at hok
    exact absurd hok (by simp)
  | ok vs =>
    cases hlast : items.getLast? with
    | none =>
      have hitems : items = [] := getLast?_none items hlast
      subst hitems
      have hlen0 := initNested_len0 init hinit
      set A := PqN.extendOffsets2 D page.levels vs (PqN.initNestedF init)
        (D.withCapacity 0)
        ((csv - PqN.nestedLen (PqN.initNestedF init)).min remaining) with hA
      have hval : PqN.extend D page init [] dict remaining (some csv) =
          Except.ok (PqN.extendLoop D csv init A.pairs A.vs
            [(A.nested, A.dec)]
            (remaining -
              (PqN.nestedLen A.nested - PqN.nestedLen (PqN.initNestedF init)))) := by
        rw [PqN.extend, hbs]
        rfl
      rw [hval] at hok
      have hpair := Except.ok.inj hok
      have hminl : (csv - PqN.nestedLen (PqN.initNestedF init)).min remaining ≤
          csv - PqN.nestedLen (PqN.initNestedF init) := Nat.min_le_left _ _
      have hminr : (csv - PqN.nestedLen (PqN.initNestedF init)).min remaining ≤
          remaining := Nat.min_le_right _ _
      have hadd1 : 1 ≤ (csv - PqN.nestedLen (PqN.initNestedF init)).min remaining :=
        Nat.le_min.mpr ⟨by omega, hrem⟩
      obtain ⟨k, hk1g, hk2, _⟩ := go_rows D (PqN.cumRepOf (PqN.initNestedF init))
        (PqN.cumSumOf (PqN.initNestedF init)) ((PqN.initNestedF init).length - 1)
        (cumRepOf_head _) (cumSumOf_head _) page.levels vs (PqN.initNestedF init)
        (PqN.valuesCountOf (PqN.initNestedF init)) (D.withCapacity 0) 0
        ((csv - PqN.nestedLen (PqN.initNestedF init)).min remaining)
        (initNested_ne_nil init hinit) (Nat.zero_le _)
        (fun heq => absurd heq (by omega))
      have hk1 : PqN.nestedLen A.nested = 0 + k := by
        rw [hA, PqN.extendOffsets2, hk1g, hlen0]
      have hbounds1 : ∀ it ∈ [(A.nested, A.dec)], PqN.nestedLen it.1 ≤ csv := by
        intro it hit
        have hx := List.mem_singleton.mp hit
        subst hx
        simp only []
        rw [hk1]
        omega
      have hloop := extendLoop_spec D init csv hinit hcs1 A.pairs.length A.pairs A.vs
        [(A.nested, A.dec)]
        (remaining - (PqN.nestedLen A.nested - PqN.nestedLen (PqN.initNestedF init)))
        (le_refl _) hbounds1
      rw [hpair] at hloop
      simp only [] at hloop
      refine ⟨hloop.1, ?_, ?_⟩
      · have h2 := hloop.2.1
        have hsub : remaining -
            (PqN.nestedLen A.nested - PqN.nestedLen (PqN.initNestedF init)) ≤
            remaining := Nat.sub_le _ _
        omega
      · have h3 := hloop.2.2
        have hts : PqN.totalRows [(A.nested, A.dec)] = PqN.nestedLen A.nested := by
          simp [PqN.totalRows]
        rw [hts] at h3
        have h0 : PqN.totalRows ([] : List (List PqN.NestedB × De)) = 0 := rfl
        omega
    | some b =>
      have hbdec := getLast?_decomp items b hlast
      have hmem : b ∈ items := by
        rw [hbdec]
        exact List.mem_append_right _ (by simp)
      have hbne : b.1 ≠ [] := hne b hmem
      have hbck : PqN.nestedLen b.1 < csv := hback b hlast
      set A := PqN.extendOffsets2 D page.levels vs b.1 b.2
        ((csv - PqN.nestedLen b.1).min remaining) with hA
      have hval : PqN.extend D page init items dict remaining (some csv) =
          Except.ok (PqN.extendLoop D csv init A.pairs A.vs
            (items.dropLast ++ [(A.nested, A.dec)])
            (remaining - (PqN.nestedLen A.nested - PqN.nestedLen b.1))) := by
        rw [PqN.extend, hbs, hlast]
        rfl
      rw [hval] at hok
      have hpair := Except.ok.inj hok
      have hminl : (csv - PqN.nestedLen b.1).min remaining ≤
          csv - PqN.nestedLen b.1 := Nat.min_le_left _ _
      have hminr : (csv - PqN.nestedLen b.1).min remaining ≤ remaining :=
        Nat.min_le_right _ _
      have hadd1 : 1 ≤ (csv - PqN.nestedLen b.1).min remaining :=
        Nat.le_min.mpr ⟨by omega, hrem⟩
      obtain ⟨k, hk1g, hk2, _⟩ := go_rows D (PqN.cumRepOf b.1) (PqN.cumSumOf b.1)
        (b.1.length - 1) (cumRepOf_head _) (cumSumOf_head _) page.levels vs b.1
        (PqN.valuesCountOf b.1) b.2 0 ((csv - PqN.nestedLen b.1).min remaining)
        hbne (Nat.zero_le _) (fun heq => absurd heq (by omega))
      have hk1 : PqN.nestedLen A.nested = PqN.nestedLen b.1 + k := by
        rw [hA, PqN.extendOffsets2, hk1g]
      have hbounds1 : ∀ it ∈ items.dropLast ++ [(A.nested, A.dec)],
          PqN.nestedLen it.1 ≤ csv := by
        intro it hit
        rcases List.mem_append.mp hit with hin | hin
        · have hmem' : it ∈ items := by
            rw [hbdec]
            exact List.mem_append_left _ hin
          exact hbound it hmem'
        · have hx := List.mem_singleton.mp hin
          subst hx
          simp only []
          rw [hk1]
          omega
      have hloop := extendLoop_spec D init csv hinit hcs1 A.pairs.length A.pairs A.vs
        (items.dropLast ++ [(A.nested, A.dec)])
        (remaining - (PqN.nestedLen A.nested - PqN.nestedLen b.1))
        (le_refl _) hbounds1
      rw [hpair] at hloop
      simp only [] at hloop
      refine ⟨hloop.1, ?_, ?_⟩
      · have h2 := hloop.2.1
        have hsub : remaining - (PqN.nestedLen A.nested - PqN.nestedLen b.1) ≤
            remaining := Nat.sub_le _ _
        omega
      · have h3 := hloop.2.2
        rw [totalRows_concat] at h3
        simp only [] at h3
        have htot : PqN.totalRows items =
            PqN.totalRows items.dropLast + PqN.nestedLen b.1 := by
          have hc := congrArg PqN.totalRows hbdec
          rw [totalRows_concat] at hc
          exact hc
        omega

/-- Witness for the C9 theorem: the three-row page `pageW` under a primitive
init with two rows owed and `chunk_size = 2` yields one full chunk of two
rows with `remaining` decremented exactly to zero. -/
theorem claim_C9_witness :
    (∀ it ∈ [([PqN.NestedB.primitive true 2], [true, true])], PqN.nestedLen it.1 ≤ 2) ∧
    (0 : Nat) ≤ 2 ∧
    PqN.totalRows [([PqN.NestedB.primitive true 2], [true, true])] + 0 =
      PqN.totalRows ([] : List (List PqN.NestedB × List Bool)) + 2 :=
  claim_C9 PqN.testDecoder PqN.pageW PqN.initP [] none 2 2
    [([PqN.NestedB.primitive true 2], [true, true])] 0
    (by simp [PqN.initP]) (by decide) (by decide)
    (by intro it hit; exact absurd hit (List.not_mem_nil it))
    (by intro it hit; exact absurd hit (List.not_mem_nil it))
    (by intro b hb; simp at hb)
    (by
      have h1 : PqN.extend PqN.testDecoder PqN.pageW PqN.initP
          ([] : List (List PqN.NestedB × List Bool)) none 2 (some 2) =
          Except.ok (PqN.extendLoop PqN.testDecoder 2 PqN.initP [(0, 1)] ()
            [([PqN.NestedB.primitive true 2], [true, true])] 0) := rfl
      rw [h1, PqN.extendLoop]
      simp)

/-- C4: corrected characterization of `next`.  If more than one chunk is
queued, or exactly one is queued and it is full, the front chunk is
returned without fetching a page.  Otherwise, if no rows are owed
(`remaining = 0`) the queue remainder is returned without touching the
page stream — this is where the claim's "fetches the next page" fails,
see the counterexample.  Only when rows are still owed is a page fetched:
an exhausted stream returns the queue remainder, a `Dict` page updates
the held dictionary and yields `More`, and a `Data` page is handed to
`extend`, yielding `More` when a single unfilled chunk results and the
front chunk otherwise. -/
theorem claim_C4 {ρ DP St Di De : Type} (D : PqN.NDecoder ρ DP St Di De)
    (init : List PqN.InitNested) (chunkSize : Option Nat)
    (s : PqN.NIter ρ DP St Di De) :
    (1 < s.items.length ∨
      (s.items.length = 1 ∧
        PqN.frontRows s.items = chunkSize.getD PqN.usizeMax) →
      PqN.next D init chunkSize s = PqN.popFront s) ∧
    (s.items.length ≤ 1 →
      ¬(s.items.length = 1 ∧
        PqN.frontRows s.items = chunkSize.getD PqN.usizeMax) →
      (s.remaining = 0 → PqN.next D init chunkSize s = PqN.popFront s) ∧
      (0 < s.remaining → s.pages = [] →
        PqN.next D init chunkSize s = PqN.popFront s) ∧
      (∀ dp rest, 0 < s.remaining →
        s.pages = Except.ok (PqN.PageM.dict dp) :: rest →
        PqN.next D init chunkSize s =
          (PqN.MaybeNext.more,
            { s with pages := rest, dict := some (D.deserializeDict dp) })) ∧
      (∀ p rest items1 remaining1, 0 < s.remaining →
        s.pages = Except.ok (PqN.PageM.data p) :: rest →
        PqN.extend D p init s.items s.dict s.remaining chunkSize =
          Except.ok (items1, remaining1) →
        PqN.next D init chunkSize s =
          (if items1.length = 1 ∧
              PqN.frontRows items1 < chunkSize.getD PqN.usizeMax
           then (PqN.MaybeNext.more,
             { s with pages := rest, items := items1, remaining := remaining1 })
           else PqN.popFront
             { s with pages := rest, items := items1,
                      remaining := remaining1 }))) := by
  refine ⟨?_, ?_⟩
  · intro hc
    rcases hc with h1 | h2
    · rw [PqN.next, if_pos h1]
    · have hlt : ¬ 1 < s.items.length := by omega
      rw [PqN.next, if_neg hlt, if_pos h2]
  · intro hq hnf
    have hlt : ¬ 1 < s.items.length := by omega
    refine ⟨?_, ?_, ?_, ?_⟩
    · intro hr0
      rw [PqN.next, if_neg hlt, if_neg hnf, if_pos hr0]
    · intro hrem hpages
      rw [PqN.next, if_neg hlt, if_neg hnf, if_neg (by omega), hpages]
    · intro dp rest hrem hpages
      rw [PqN.next, if_neg hlt, if_neg hnf, if_neg (by omega), hpages]
    · intro p rest items1 remaining1 hrem hpages hext
      rw [PqN.next, if_neg hlt, if_neg hnf, if_neg (by omega), hpages]
      simp only []
      rw [hext]

/-- Witness for the C4 theorem: with two chunks queued the front chunk is
returned without fetching a page, and with an empty queue, zero rows owed
and a `Dict` page still queued, `next` returns the queue remainder
(`None`) without consuming the page. -/
theorem claim_C4_witness :
    PqN.next PqN.testDecoder PqN.initP (some 2) PqN.sTwo =
      PqN.popFront PqN.sTwo ∧
    PqN.next PqN.testDecoder PqN.initP (some 2) PqN.cexState =
      PqN.popFront PqN.cexState :=
  ⟨(claim_C4 PqN.testDecoder PqN.initP (some 2) PqN.sTwo).1
      (Or.inl (by decide)),
   ((claim_C4 PqN.testDecoder PqN.initP (some 2) PqN.cexState).2
      (by decide) (by decide)).1 rfl⟩
